import Mathlib

/-!
# Shallow embedding of `src/bandito/bandito.py` (class `Bandit`)

The Python module implements the Posen & Levinthal (2012) multi-armed
bandit simulation.  We embed the `Bandit` class faithfully:

* Python floats are modelled as rationals (`ℚ`); the source performs only
  field arithmetic and comparisons on them.
* `arms` and `turns` are stored as integers (`ℤ`), as Python ints may be
  negative; `range(n)` over a non-positive `n` is the empty range, which we
  model with `Int.toNat`.
* The ambient random source (`random.random()`) and the stochastic policy
  functions are modelled by explicit per-turn oracle data (`TurnOracle`):
  `turb` is the result-function of `turbulence_fxn` for that turn (its
  internal random draws fixed), `x` is the uniform draw used for arm
  selection, `y` the uniform draw used for the win/loss outcome.
* The deterministic pluggable policies (`strategy_fxn`, `belief_fxn`) and
  the scalar `strategy` parameter form a `BanditConfig`.
* Statements in the source that can raise (`self._tries[choice]`,
  `self._payoffs[choice]`, `self._wins[choice]`, the index accesses inside
  the metric comprehensions, `max()` on an empty list, `self._score[-1]`)
  are modelled as fallible: the per-turn step returns `Option Bandit`
  (`none` = the turn raised and the run aborted) and the metric accessors
  return `Except String (Option _)` (`.error` = `IndexError`,
  `.ok none` = Python `None`).
* Wall-clock timing (`self._simtime`) is not modelled.
-/

/-- The per-run mutable state of the Python `Bandit` object.  Field names
match the instance attributes assigned in `Bandit.__init__`
(`src/bandito/bandito.py`, lines 30-86). -/
structure Bandit where
  _arms : ℤ
  _turns : ℤ
  _assetstock : ℤ
  _complete : Bool
  _payoffs : List ℚ
  _tries : List ℕ
  _wins : List ℕ
  _beliefs : List ℚ
  _score : List ℤ
  _knowledge : List ℚ
  _opinion : List ℚ
  _probexplore : List ℚ
  deriving Repr, DecidableEq

/-- The deterministic pluggable-policy part of the constructor arguments:
`strategy_fxn`, the scalar `strategy` parameter passed to it, and
`belief_fxn` (called as `belief_fxn(beliefs, tries, wins)`). -/
structure BanditConfig where
  strategy_fxn : List ℚ → ℚ → List ℚ
  strategy : ℚ
  belief_fxn : List ℚ → List ℕ → List ℕ → List ℚ

/-- The oracle data one turn of `Bandit.simulate` consumes: the effect of
`turbulence_fxn(payoffs, payoff_fxn, turbulence)` with this turn's internal
random draws fixed, the uniform draw `x = random.random()` used for arm
selection (line 100), and the uniform draw used in the win test
(line 105). -/
structure TurnOracle where
  turb : List ℚ → List ℚ
  x : ℚ
  y : ℚ

/-- `Bandit.__init__` (lines 20-86).  `payoff_fxn` is modelled as the
sequence of its successive return values, so
`self._payoffs = [payoff_fxn() for i in range(arms)]` becomes a map over
`List.range arms.toNat`.  The body performs no validation and cannot
raise: every operation (`range`, list comprehensions, assignments) is
total for all integer `arms` and `turns`. -/
def Bandit.init (arms turns : ℤ) (payoff_fxn : ℕ → ℚ) : Bandit :=
  { _arms := arms
    _turns := turns
    _assetstock := 0
    _complete := false
    _payoffs := (List.range arms.toNat).map payoff_fxn
    _tries := List.replicate arms.toNat 0
    _wins := List.replicate arms.toNat 0
    _beliefs := List.replicate arms.toNat (1/2)
    _score := []
    _knowledge := []
    _opinion := []
    _probexplore := [] }

/-- `itertools.accumulate` (line 99): running sums with a carried
accumulator. -/
def accumulateFrom (acc : ℚ) : List ℚ → List ℚ
  | [] => []
  | p :: ps => (acc + p) :: accumulateFrom (acc + p) ps

/-- `list(itertools.accumulate(choice_probabilities))` (line 99). -/
def accumulate (l : List ℚ) : List ℚ :=
  accumulateFrom 0 l

/-- The loop body of CPython's `bisect.bisect_right`:
`while lo < hi: mid = (lo+hi)//2; if x < a[mid]: hi = mid else: lo = mid+1`.
The loop runs at most `hi - lo` iterations, so structural fuel replaces the
`while`; `bisect` below supplies fuel `a.length`, which can never run
out. -/
def bisectAux (a : List ℚ) (x : ℚ) : ℕ → ℕ → ℕ → ℕ
  | 0, lo, _ => lo
  | fuel + 1, lo, hi =>
    if lo < hi then
      let mid := (lo + hi) / 2
      if x < a.getD mid 0 then bisectAux a x fuel lo mid
      else bisectAux a x fuel (mid + 1) hi
    else lo

/-- `bisect.bisect(cumdist, x)` (line 101), i.e. `bisect_right` with
`lo = 0`, `hi = len(cumdist)`. -/
def bisect (a : List ℚ) (x : ℚ) : ℕ :=
  bisectAux a x a.length 0 a.length

/-- Lines 99-101: the arm-selection step applied to the strategy's choice
probabilities and the uniform draw `x`. -/
def chooseArm (choice_probabilities : List ℚ) (x : ℚ) : ℕ :=
  bisect (accumulate choice_probabilities) x

/-- Python `max()` over a list: raises on `[]` (the caller guards), else
folds binary `max` from the first element. -/
def listMax : List ℚ → ℚ
  | [] => 0
  | p :: ps => ps.foldl max p

/-- The value appended to `self._knowledge` (line 117):
`1 - sum([(beliefs[i] - payoffs[i])**2 for i in range(arms)])`. -/
def knowledgeMetric (arms : ℤ) (beliefs payoffs : List ℚ) : ℚ :=
  1 - ((List.range arms.toNat).map
    (fun i => (beliefs.getD i 0 - payoffs.getD i 0) ^ 2)).sum

/-- The value appended to `self._opinion` (line 118):
`sum([(beliefs[i] - sum(beliefs)/arms)**2 for i in range(arms)])`.
The division is evaluated only when the range is non-empty, i.e. when
`arms ≥ 1`, so it never divides by zero where Python evaluates it. -/
def opinionMetric (arms : ℤ) (beliefs : List ℚ) : ℚ :=
  ((List.range arms.toNat).map
    (fun i => (beliefs.getD i 0 - beliefs.sum / (arms : ℚ)) ^ 2)).sum

/-- One iteration of the `for t in range(self._turns)` loop of
`Bandit.simulate` (lines 92-119).  `none` models the iteration raising
(an out-of-range list index or `max([])`), which aborts the run.  The
guards sit exactly where the source indexes:
`self._tries[choice]` and `self._payoffs[choice]` (lines 104-105),
`self._wins[choice]` only on a win (line 106), `beliefs[i]`/`payoffs[i]`
for `i in range(arms)` in the metric comprehensions (lines 117-118), and
`max(choice_probabilities)` (line 119). -/
def Bandit.step (cfg : BanditConfig) (tr : TurnOracle) (b : Bandit) :
    Option Bandit :=
  let payoffs := tr.turb b._payoffs
  let choice_probabilities := cfg.strategy_fxn b._beliefs cfg.strategy
  let choice := chooseArm choice_probabilities tr.x
  if choice < b._tries.length ∧ choice < payoffs.length then
    let tries := b._tries.set choice (b._tries.getD choice 0 + 1)
    let win : Bool := decide (tr.y < payoffs.getD choice 0)
    if win = true → choice < b._wins.length then
      let wins :=
        if win then b._wins.set choice (b._wins.getD choice 0 + 1) else b._wins
      let assetstock := if win then b._assetstock + 1 else b._assetstock - 1
      let beliefs := cfg.belief_fxn b._beliefs tries wins
      if b._arms.toNat ≤ beliefs.length ∧ b._arms.toNat ≤ payoffs.length ∧
          choice_probabilities ≠ [] then
        some { b with
          _payoffs := payoffs
          _tries := tries
          _wins := wins
          _assetstock := assetstock
          _beliefs := beliefs
          _score := b._score ++ [assetstock]
          _knowledge := b._knowledge ++ [knowledgeMetric b._arms beliefs payoffs]
          _opinion := b._opinion ++ [opinionMetric b._arms beliefs]
          _probexplore := b._probexplore ++ [1 - listMax choice_probabilities] }
      else none
    else none
  else none

/-- Runs the loop body once per element of `trs` (in order), stopping with
`none` if an iteration raises. -/
def Bandit.run (cfg : BanditConfig) : List TurnOracle → Bandit → Option Bandit
  | [], b => some b
  | tr :: trs, b =>
    match b.step cfg tr with
    | some b' => Bandit.run cfg trs b'
    | none => none

/-- `Bandit.simulate` (lines 88-124): exactly `self._turns` loop
iterations (`env t` is turn `t`'s oracle data), then `self._complete =
True`.  The wall-clock measurement of lines 90 and 123-124 is not
modelled. -/
def Bandit.simulate (cfg : BanditConfig) (env : ℕ → TurnOracle) (b : Bandit) :
    Option Bandit :=
  match b.run cfg ((List.range b._turns.toNat).map env) with
  | some b' => some { b' with _complete := true }
  | none => none

/-- `Bandit.score` (lines 127-131): `self._score[-1]` if complete
(raising `IndexError` on an empty history), else Python `None`. -/
def Bandit.score (b : Bandit) : Except String (Option ℤ) :=
  if b._complete then
    match b._score.getLast? with
    | some v => .ok (some v)
    | none => .error "IndexError"
  else .ok none

/-- `Bandit.knowledge` (lines 134-138). -/
def Bandit.knowledge (b : Bandit) : Except String (Option ℚ) :=
  if b._complete then
    match b._knowledge.getLast? with
    | some v => .ok (some v)
    | none => .error "IndexError"
  else .ok none

/-- `Bandit.opinion` (lines 140-144). -/
def Bandit.opinion (b : Bandit) : Except String (Option ℚ) :=
  if b._complete then
    match b._opinion.getLast? with
    | some v => .ok (some v)
    | none => .error "IndexError"
  else .ok none

/-- `Bandit.probexplore` (lines 146-150). -/
def Bandit.probexplore (b : Bandit) : Except String (Option ℚ) :=
  if b._complete then
    match b._probexplore.getLast? with
    | some v => .ok (some v)
    | none => .error "IndexError"
  else .ok none

/-! ## Lemmas about `accumulate` -/

theorem length_accumulateFrom (acc : ℚ) (l : List ℚ) :
    (accumulateFrom acc l).length = l.length := by
  induction l generalizing acc with
  | nil => rfl
  | cons p ps ih => simp [accumulateFrom, ih]

theorem length_accumulate (l : List ℚ) : (accumulate l).length = l.length :=
  length_accumulateFrom 0 l

theorem le_of_mem_accumulateFrom {acc : ℚ} {l : List ℚ}
    (h0 : ∀ p ∈ l, 0 ≤ p) {y : ℚ} (hy : y ∈ accumulateFrom acc l) : acc ≤ y := by
  induction l generalizing acc with
  | nil => simp [accumulateFrom] at hy
  | cons p ps ih =>
    simp only [accumulateFrom, List.mem_cons] at hy
    have hp : 0 ≤ p := h0 p (List.mem_cons_self _ _)
    rcases hy with rfl | hy
    · linarith
    · have := ih (fun q hq => h0 q (List.mem_cons_of_mem _ hq)) hy
      linarith

theorem sorted_accumulateFrom (acc : ℚ) {l : List ℚ} (h0 : ∀ p ∈ l, 0 ≤ p) :
    (accumulateFrom acc l).Sorted (· ≤ ·) := by
  induction l generalizing acc with
  | nil => simp [accumulateFrom]
  | cons p ps ih =>
    have h0' : ∀ q ∈ ps, 0 ≤ q := fun q hq => h0 q (List.mem_cons_of_mem _ hq)
    simp only [accumulateFrom, List.sorted_cons]
    exact ⟨fun y hy => le_of_mem_accumulateFrom h0' hy, ih _ h0'⟩

theorem sorted_accumulate {l : List ℚ} (h0 : ∀ p ∈ l, 0 ≤ p) :
    (accumulate l).Sorted (· ≤ ·) :=
  sorted_accumulateFrom 0 h0

theorem getLast?_accumulateFrom :
    ∀ (acc p : ℚ) (ps : List ℚ),
      (accumulateFrom acc (p :: ps)).getLast? = some (acc + (p :: ps).sum) := by
  intro acc p ps
  induction ps generalizing acc p with
  | nil => simp [accumulateFrom]
  | cons q qs ih =>
    have h := ih (acc + p) q
    simp only [accumulateFrom] at h ⊢
    rw [List.getLast?_cons_cons]
    rw [h]
    simp [add_assoc]

theorem getLast?_accumulate {l : List ℚ} (h : l ≠ []) :
    (accumulate l).getLast? = some l.sum := by
  match l, h with
  | p :: ps, _ =>
    have := getLast?_accumulateFrom 0 p ps
    simpa [accumulate] using this

/-! ## `bisect_right` on a sorted list counts the elements `≤ x` -/

theorem countP_le_of_getElem_gt {a : List ℚ} (hs : a.Sorted (· ≤ ·)) {x : ℚ}
    {i : ℕ} (hi : i < a.length) (hx : x < a[i]) :
    a.countP (fun v => decide (v ≤ x)) ≤ i := by
  have hsplit : a.take i ++ a.drop i = a := List.take_append_drop i a
  have hcount : a.countP (fun v => decide (v ≤ x)) =
      (a.take i).countP (fun v => decide (v ≤ x)) +
      (a.drop i).countP (fun v => decide (v ≤ x)) := by
    rw [← List.countP_append, hsplit]
  have hdrop : (a.drop i).countP (fun v => decide (v ≤ x)) = 0 := by
    rw [List.countP_eq_zero]
    intro v hv
    rw [List.mem_iff_getElem] at hv
    obtain ⟨j, hj, rfl⟩ := hv
    rw [List.getElem_drop]
    have hij : i ≤ i + j := Nat.le_add_right i j
    have hijlen : i + j < a.length := by
      have := hj
      simp [List.length_drop] at this
      omega
    have hle : a[i] ≤ a[i + j] := by
      rcases Nat.eq_or_lt_of_le hij with heq | hlt
    -- an equal index gives an equal element; a larger one uses sortedness
      · simp [← heq]
      · exact (List.pairwise_iff_getElem.mp hs) i (i + j) hi hijlen hlt
    simp only [decide_eq_true_eq, not_le]
    linarith
  have htake : (a.take i).countP (fun v => decide (v ≤ x)) ≤ i := by
    calc (a.take i).countP (fun v => decide (v ≤ x)) ≤ (a.take i).length :=
          List.countP_le_length _
      _ ≤ i := by simp [List.length_take]
  omega

theorem succ_le_countP_of_getElem_le {a : List ℚ} (hs : a.Sorted (· ≤ ·))
    {x : ℚ} {i : ℕ} (hi : i < a.length) (hx : a[i] ≤ x) :
    i + 1 ≤ a.countP (fun v => decide (v ≤ x)) := by
  have hsplit : a.take (i + 1) ++ a.drop (i + 1) = a := List.take_append_drop _ a
  have hcount : a.countP (fun v => decide (v ≤ x)) =
      (a.take (i + 1)).countP (fun v => decide (v ≤ x)) +
      (a.drop (i + 1)).countP (fun v => decide (v ≤ x)) := by
    rw [← List.countP_append, hsplit]
  have htake : (a.take (i + 1)).countP (fun v => decide (v ≤ x)) =
      (a.take (i + 1)).length := by
    rw [List.countP_eq_length]
    intro v hv
    rw [List.mem_iff_getElem] at hv
    obtain ⟨j, hj, rfl⟩ := hv
    rw [List.getElem_take]
    have hjlen : j < a.length := by
      have := hj
      simp [List.length_take] at this
      omega
    have hji : j ≤ i := by
      have := hj
      simp [List.length_take] at this
      omega
    have hle : a[j] ≤ a[i] := by
      rcases Nat.eq_or_lt_of_le hji with heq | hlt
      · simp [heq]
      · exact (List.pairwise_iff_getElem.mp hs) j i hjlen hi hlt
    simp only [decide_eq_true_eq]
    linarith
  have hlen : (a.take (i + 1)).length = i + 1 := by
    simp [List.length_take]
    omega
  omega

theorem bisectAux_eq_countP {a : List ℚ} {x : ℚ} (hs : a.Sorted (· ≤ ·)) :
    ∀ (fuel lo hi : ℕ), hi ≤ a.length →
      lo ≤ a.countP (fun v => decide (v ≤ x)) →
      a.countP (fun v => decide (v ≤ x)) ≤ hi → hi - lo ≤ fuel →
      bisectAux a x fuel lo hi = a.countP (fun v => decide (v ≤ x)) := by
  intro fuel
  induction fuel with
  | zero =>
    intro lo hi _ h2 h3 h4
    simp only [bisectAux]
    omega
  | succ fuel ih =>
    intro lo hi h1 h2 h3 h4
    by_cases hlh : lo < hi
    · have hmid1 : lo ≤ (lo + hi) / 2 := by omega
      have hmid2 : (lo + hi) / 2 < hi := by omega
      have hmlen : (lo + hi) / 2 < a.length := lt_of_lt_of_le hmid2 h1
      have hgetD : a.getD ((lo + hi) / 2) 0 = a[(lo + hi) / 2] := by
        rw [List.getD_eq_getElem?_getD, List.getElem?_eq_getElem hmlen,
          Option.getD_some]
      by_cases hxm : x < a.getD ((lo + hi) / 2) 0
      · have hcle : a.countP (fun v => decide (v ≤ x)) ≤ (lo + hi) / 2 :=
          countP_le_of_getElem_gt hs hmlen (hgetD ▸ hxm)
        simp only [bisectAux, if_pos hlh, if_pos hxm]
        exact ih lo ((lo + hi) / 2) (le_of_lt hmlen) h2 hcle (by omega)
      · have hmx : a[(lo + hi) / 2] ≤ x := by
          rw [← hgetD]
          exact le_of_not_lt hxm
        have hcge : (lo + hi) / 2 + 1 ≤ a.countP (fun v => decide (v ≤ x)) :=
          succ_le_countP_of_getElem_le hs hmlen hmx
        simp only [bisectAux, if_pos hlh, if_neg hxm]
        exact ih ((lo + hi) / 2 + 1) hi h1 hcge h3 (by omega)
    · simp only [bisectAux, if_neg hlh]
      omega

theorem bisect_eq_countP {a : List ℚ} {x : ℚ} (hs : a.Sorted (· ≤ ·)) :
    bisect a x = a.countP (fun v => decide (v ≤ x)) :=
  bisectAux_eq_countP hs a.length 0 a.length le_rfl (Nat.zero_le _)
    (List.countP_le_length _) (by omega)

/-! ## The arm-selection step on a valid probability vector -/

theorem sum_ne_one_of_nil : ([] : List ℚ).sum ≠ 1 := by norm_num

theorem accumulate_getElem_last {probs : List ℚ} (hne : probs ≠ [])
    (hlt : (accumulate probs).length - 1 < (accumulate probs).length) :
    (accumulate probs)[(accumulate probs).length - 1] = probs.sum := by
  have h1 : (accumulate probs).getLast? = some probs.sum :=
    getLast?_accumulate hne
  rw [List.getLast?_eq_getElem?] at h1
  rw [List.getElem?_eq_getElem hlt] at h1
  exact Option.some.inj h1

theorem chooseArm_eq_countP {probs : List ℚ} (x : ℚ)
    (h0 : ∀ p ∈ probs, 0 ≤ p) :
    chooseArm probs x =
      (accumulate probs).countP (fun v => decide (v ≤ x)) :=
  bisect_eq_countP (sorted_accumulate h0)

theorem chooseArm_lt_length {probs : List ℚ} {x : ℚ}
    (h0 : ∀ p ∈ probs, 0 ≤ p) (h1 : probs.sum = 1) (hx1 : x < 1) :
    chooseArm probs x < probs.length := by
  have hne : probs ≠ [] := by
    intro h
    exact sum_ne_one_of_nil (h ▸ h1)
  have hs := sorted_accumulate h0
  have hlen : (accumulate probs).length = probs.length := length_accumulate probs
  have hlpos : 0 < (accumulate probs).length := by
    rw [hlen]
    exact List.length_pos.mpr hne
  have hlt : (accumulate probs).length - 1 < (accumulate probs).length := by
    omega
  have hlast : (accumulate probs)[(accumulate probs).length - 1] = 1 := by
    rw [accumulate_getElem_last hne hlt, h1]
  have hcle : (accumulate probs).countP (fun v => decide (v ≤ x)) ≤
      (accumulate probs).length - 1 :=
    countP_le_of_getElem_gt hs hlt (hlast ▸ hx1)
  rw [chooseArm_eq_countP x h0]
  omega

theorem chooseArm_first_strictly_greater {probs : List ℚ} {x : ℚ}
    (h0 : ∀ p ∈ probs, 0 ≤ p) (h1 : probs.sum = 1) (hx1 : x < 1) :
    (∀ j, j < chooseArm probs x → (accumulate probs).getD j 0 ≤ x) ∧
      x < (accumulate probs).getD (chooseArm probs x) 0 := by
  have hs := sorted_accumulate h0
  have hlen : (accumulate probs).length = probs.length := length_accumulate probs
  have hc : chooseArm probs x < probs.length := chooseArm_lt_length h0 h1 hx1
  have hceq := chooseArm_eq_countP x h0
  constructor
  · intro j hj
    have hjlen : j < (accumulate probs).length := by omega
    rw [List.getD_eq_getElem?_getD, List.getElem?_eq_getElem hjlen,
      Option.getD_some]
    by_contra hgt
    push_neg at hgt
    have := countP_le_of_getElem_gt hs hjlen hgt
    omega
  · have hclen : chooseArm probs x < (accumulate probs).length := by omega
    rw [List.getD_eq_getElem?_getD, List.getElem?_eq_getElem hclen,
      Option.getD_some]
    by_contra hle
    push_neg at hle
    have := succ_le_countP_of_getElem_le hs hclen hle
    omega

/-! ## Elimination principle for one successful loop iteration

`stepWin`/`stepLoss` spell out the two branches of the loop body's
win/loss test; `step_elim` recovers them, together with the in-range
facts the guards established, from a successful `step`. -/

/-- The state after a winning turn with selected arm `choice`. -/
def Bandit.stepWin (cfg : BanditConfig) (tr : TurnOracle) (b : Bandit)
    (choice : ℕ) : Bandit :=
  let payoffs := tr.turb b._payoffs
  let probs := cfg.strategy_fxn b._beliefs cfg.strategy
  let tries := b._tries.set choice (b._tries.getD choice 0 + 1)
  let wins := b._wins.set choice (b._wins.getD choice 0 + 1)
  let beliefs := cfg.belief_fxn b._beliefs tries wins
  { b with
    _payoffs := payoffs
    _tries := tries
    _wins := wins
    _assetstock := b._assetstock + 1
    _beliefs := beliefs
    _score := b._score ++ [b._assetstock + 1]
    _knowledge := b._knowledge ++ [knowledgeMetric b._arms beliefs payoffs]
    _opinion := b._opinion ++ [opinionMetric b._arms beliefs]
    _probexplore := b._probexplore ++ [1 - listMax probs] }

/-- The state after a losing turn with selected arm `choice`. -/
def Bandit.stepLoss (cfg : BanditConfig) (tr : TurnOracle) (b : Bandit)
    (choice : ℕ) : Bandit :=
  let payoffs := tr.turb b._payoffs
  let probs := cfg.strategy_fxn b._beliefs cfg.strategy
  let tries := b._tries.set choice (b._tries.getD choice 0 + 1)
  let beliefs := cfg.belief_fxn b._beliefs tries b._wins
  { b with
    _payoffs := payoffs
    _tries := tries
    _assetstock := b._assetstock - 1
    _beliefs := beliefs
    _score := b._score ++ [b._assetstock - 1]
    _knowledge := b._knowledge ++ [knowledgeMetric b._arms beliefs payoffs]
    _opinion := b._opinion ++ [opinionMetric b._arms beliefs]
    _probexplore := b._probexplore ++ [1 - listMax probs] }

theorem Bandit.step_elim {cfg : BanditConfig} {tr : TurnOracle} {b b' : Bandit}
    (h : b.step cfg tr = some b') :
    ∃ choice,
      choice = chooseArm (cfg.strategy_fxn b._beliefs cfg.strategy) tr.x ∧
      choice < b._tries.length ∧
      choice < (tr.turb b._payoffs).length ∧
      ((tr.y < (tr.turb b._payoffs).getD choice 0 ∧ choice < b._wins.length ∧
          b' = b.stepWin cfg tr choice) ∨
        (¬ tr.y < (tr.turb b._payoffs).getD choice 0 ∧
          b' = b.stepLoss cfg tr choice)) := by
  refine ⟨chooseArm (cfg.strategy_fxn b._beliefs cfg.strategy) tr.x, rfl, ?_⟩
  simp only [Bandit.step] at h
  split_ifs at h with h1 h2 hwin hg hg'
  · exact ⟨h1.1, h1.2,
      Or.inl ⟨of_decide_eq_true hwin, h2 hwin, (Option.some.inj h).symm⟩⟩
  · exact ⟨h1.1, h1.2,
      Or.inr ⟨fun hc => hwin (decide_eq_true hc), (Option.some.inj h).symm⟩⟩

/-! ## List helpers for the per-arm counters -/

theorem sum_set_getD_add_one :
    ∀ (l : List ℕ) (i : ℕ), i < l.length →
      (l.set i (l.getD i 0 + 1)).sum = l.sum + 1 := by
  intro l
  induction l with
  | nil => intro i h; simp at h
  | cons a l ih =>
    intro i h
    cases i with
    | zero =>
      simp only [List.getD_cons_zero, List.set_cons_zero, List.sum_cons]
      omega
    | succ i =>
      have h' : i < l.length := by simpa using h
      simp only [List.getD_cons_succ, List.set_cons_succ, List.sum_cons,
        ih i h']
      omega

theorem getD_set_incr_self {l : List ℕ} {i : ℕ} (h : i < l.length) :
    (l.set i (l.getD i 0 + 1)).getD i 0 = l.getD i 0 + 1 := by
  rw [List.getD_eq_getElem?_getD, List.getElem?_set_self h, Option.getD_some]

theorem getD_set_ne {α : Type} (l : List α) (i j : ℕ) (v d : α) (h : i ≠ j) :
    (l.set i v).getD j d = l.getD j d := by
  rw [List.getD_eq_getElem?_getD, List.getElem?_set_ne h,
    ← List.getD_eq_getElem?_getD]

theorem getD_le_getD_set_incr (l : List ℕ) (i j : ℕ) :
    l.getD j 0 ≤ (l.set i (l.getD i 0 + 1)).getD j 0 := by
  by_cases hij : i = j
  · subst hij
    by_cases h : i < l.length
    · rw [getD_set_incr_self h]
      omega
    · rw [List.set_eq_of_length_le (le_of_not_lt h)]
  · rw [getD_set_ne l i j _ 0 hij]

/-! ## Per-step facts derived from `step_elim` -/

theorem Bandit.step_static {cfg : BanditConfig} {tr : TurnOracle}
    {b b' : Bandit} (h : b.step cfg tr = some b') :
    b'._arms = b._arms ∧ b'._turns = b._turns ∧ b'._complete = b._complete := by
  obtain ⟨c, _, _, _, hbr⟩ := Bandit.step_elim h
  rcases hbr with ⟨_, _, rfl⟩ | ⟨_, rfl⟩ <;>
    exact ⟨rfl, rfl, rfl⟩

theorem Bandit.step_tries_sum {cfg : BanditConfig} {tr : TurnOracle}
    {b b' : Bandit} (h : b.step cfg tr = some b') :
    b'._tries.sum = b._tries.sum + 1 := by
  obtain ⟨c, _, hlt, _, hbr⟩ := Bandit.step_elim h
  rcases hbr with ⟨_, _, rfl⟩ | ⟨_, rfl⟩ <;>
    exact sum_set_getD_add_one b._tries c hlt

theorem Bandit.step_hist_lengths {cfg : BanditConfig} {tr : TurnOracle}
    {b b' : Bandit} (h : b.step cfg tr = some b') :
    b'._score.length = b._score.length + 1 ∧
    b'._knowledge.length = b._knowledge.length + 1 ∧
    b'._opinion.length = b._opinion.length + 1 ∧
    b'._probexplore.length = b._probexplore.length + 1 := by
  obtain ⟨c, _, _, _, hbr⟩ := Bandit.step_elim h
  rcases hbr with ⟨_, _, rfl⟩ | ⟨_, rfl⟩ <;>
    simp [Bandit.stepWin, Bandit.stepLoss]

theorem Bandit.step_counters_mono {cfg : BanditConfig} {tr : TurnOracle}
    {b b' : Bandit} (h : b.step cfg tr = some b') (j : ℕ) :
    b._tries.getD j 0 ≤ b'._tries.getD j 0 ∧
    b._wins.getD j 0 ≤ b'._wins.getD j 0 := by
  obtain ⟨c, _, _, _, hbr⟩ := Bandit.step_elim h
  rcases hbr with ⟨_, _, rfl⟩ | ⟨_, rfl⟩
  · exact ⟨getD_le_getD_set_incr _ c j, getD_le_getD_set_incr _ c j⟩
  · exact ⟨getD_le_getD_set_incr _ c j, le_refl _⟩

theorem Bandit.step_wins_le_tries {cfg : BanditConfig} {tr : TurnOracle}
    {b b' : Bandit} (h : b.step cfg tr = some b')
    (hb : ∀ j, b._wins.getD j 0 ≤ b._tries.getD j 0) (j : ℕ) :
    b'._wins.getD j 0 ≤ b'._tries.getD j 0 := by
  obtain ⟨c, _, hctries, _, hbr⟩ := Bandit.step_elim h
  rcases hbr with ⟨_, hcwins, rfl⟩ | ⟨_, rfl⟩
  · by_cases hcj : c = j
    · subst hcj
      show (b._wins.set c (b._wins.getD c 0 + 1)).getD c 0 ≤
        (b._tries.set c (b._tries.getD c 0 + 1)).getD c 0
      rw [getD_set_incr_self hcwins, getD_set_incr_self hctries]
      exact Nat.succ_le_succ (hb c)
    · show (b._wins.set c (b._wins.getD c 0 + 1)).getD j 0 ≤
        (b._tries.set c (b._tries.getD c 0 + 1)).getD j 0
      rw [getD_set_ne _ c j _ 0 hcj, getD_set_ne _ c j _ 0 hcj]
      exact hb j
  · show b._wins.getD j 0 ≤
      (b._tries.set c (b._tries.getD c 0 + 1)).getD j 0
    exact le_trans (hb j) (getD_le_getD_set_incr _ c j)

theorem Bandit.step_wins_sum {cfg : BanditConfig} {tr : TurnOracle}
    {b b' : Bandit} (h : b.step cfg tr = some b') :
    (tr.y < (tr.turb b._payoffs).getD
        (chooseArm (cfg.strategy_fxn b._beliefs cfg.strategy) tr.x) 0 →
      b'._wins.sum = b._wins.sum + 1 ∧ b'._assetstock = b._assetstock + 1) ∧
    (¬ tr.y < (tr.turb b._payoffs).getD
        (chooseArm (cfg.strategy_fxn b._beliefs cfg.strategy) tr.x) 0 →
      b'._wins = b._wins ∧ b'._assetstock = b._assetstock - 1) := by
  obtain ⟨c, hc, _, _, hbr⟩ := Bandit.step_elim h
  subst hc
  rcases hbr with ⟨hw, hcwins, rfl⟩ | ⟨hl, rfl⟩
  · refine ⟨fun _ => ⟨sum_set_getD_add_one b._wins _ hcwins, rfl⟩,
      fun hn => absurd hw hn⟩
  · exact ⟨fun hw => absurd hw hl, fun _ => ⟨rfl, rfl⟩⟩

theorem Bandit.step_score_last {cfg : BanditConfig} {tr : TurnOracle}
    {b b' : Bandit} (h : b.step cfg tr = some b') :
    b'._score.getLast? = some b'._assetstock := by
  obtain ⟨c, _, _, _, hbr⟩ := Bandit.step_elim h
  rcases hbr with ⟨_, _, rfl⟩ | ⟨_, rfl⟩ <;>
    exact List.getLast?_concat _

theorem Bandit.step_stock_inv {cfg : BanditConfig} {tr : TurnOracle}
    {b b' : Bandit} (h : b.step cfg tr = some b')
    (hprev : b._assetstock = 2 * (b._wins.sum : ℤ) - (b._tries.sum : ℤ)) :
    b'._assetstock = 2 * (b'._wins.sum : ℤ) - (b'._tries.sum : ℤ) := by
  have htries := Bandit.step_tries_sum h
  have hwins := Bandit.step_wins_sum h
  by_cases hw : tr.y < (tr.turb b._payoffs).getD
      (chooseArm (cfg.strategy_fxn b._beliefs cfg.strategy) tr.x) 0
  · obtain ⟨hws, hst⟩ := hwins.1 hw
    rw [hst, hws, htries, hprev]
    push_cast
    ring
  · obtain ⟨hws, hst⟩ := hwins.2 hw
    rw [hst, hws, htries, hprev]
    push_cast
    ring

/-! ## Facts about whole runs, by induction on the oracle list -/

theorem Bandit.run_nil_elim {cfg : BanditConfig} {b b' : Bandit}
    (h : b.run cfg [] = some b') : b' = b := by
  simp only [Bandit.run] at h
  exact (Option.some.inj h).symm

theorem Bandit.run_cons_elim {cfg : BanditConfig} {tr : TurnOracle}
    {trs : List TurnOracle} {b b' : Bandit}
    (h : b.run cfg (tr :: trs) = some b') :
    ∃ b1, b.step cfg tr = some b1 ∧ b1.run cfg trs = some b' := by
  simp only [Bandit.run] at h
  cases hstep : b.step cfg tr with
  | none => rw [hstep] at h; exact absurd h (by simp)
  | some b1 => rw [hstep] at h; exact ⟨b1, rfl, h⟩

theorem Bandit.run_static {cfg : BanditConfig} :
    ∀ {trs : List TurnOracle} {b b' : Bandit}, b.run cfg trs = some b' →
      b'._arms = b._arms ∧ b'._turns = b._turns ∧
      b'._complete = b._complete := by
  intro trs
  induction trs with
  | nil =>
    intro b b' h
    rw [Bandit.run_nil_elim h]
    exact ⟨rfl, rfl, rfl⟩
  | cons tr trs ih =>
    intro b b' h
    obtain ⟨b1, hstep, hrun⟩ := Bandit.run_cons_elim h
    obtain ⟨h1, h2, h3⟩ := Bandit.step_static hstep
    obtain ⟨h1', h2', h3'⟩ := ih hrun
    exact ⟨h1'.trans h1, h2'.trans h2, h3'.trans h3⟩

theorem Bandit.run_tries_sum {cfg : BanditConfig} :
    ∀ {trs : List TurnOracle} {b b' : Bandit}, b.run cfg trs = some b' →
      b'._tries.sum = b._tries.sum + trs.length := by
  intro trs
  induction trs with
  | nil =>
    intro b b' h
    rw [Bandit.run_nil_elim h]
    simp
  | cons tr trs ih =>
    intro b b' h
    obtain ⟨b1, hstep, hrun⟩ := Bandit.run_cons_elim h
    rw [ih hrun, Bandit.step_tries_sum hstep, List.length_cons]
    omega

theorem Bandit.run_hist_lengths {cfg : BanditConfig} :
    ∀ {trs : List TurnOracle} {b b' : Bandit}, b.run cfg trs = some b' →
      b'._score.length = b._score.length + trs.length ∧
      b'._knowledge.length = b._knowledge.length + trs.length ∧
      b'._opinion.length = b._opinion.length + trs.length ∧
      b'._probexplore.length = b._probexplore.length + trs.length := by
  intro trs
  induction trs with
  | nil =>
    intro b b' h
    rw [Bandit.run_nil_elim h]
    simp
  | cons tr trs ih =>
    intro b b' h
    obtain ⟨b1, hstep, hrun⟩ := Bandit.run_cons_elim h
    obtain ⟨s1, k1, o1, p1⟩ := Bandit.step_hist_lengths hstep
    obtain ⟨s2, k2, o2, p2⟩ := ih hrun
    refine ⟨?_, ?_, ?_, ?_⟩ <;> simp only [s2, k2, o2, p2, s1, k1, o1, p1,
      List.length_cons] <;> omega

theorem Bandit.run_wins_le_tries {cfg : BanditConfig} :
    ∀ {trs : List TurnOracle} {b b' : Bandit}, b.run cfg trs = some b' →
      (∀ j, b._wins.getD j 0 ≤ b._tries.getD j 0) →
      ∀ j, b'._wins.getD j 0 ≤ b'._tries.getD j 0 := by
  intro trs
  induction trs with
  | nil =>
    intro b b' h hb
    rw [Bandit.run_nil_elim h]
    exact hb
  | cons tr trs ih =>
    intro b b' h hb
    obtain ⟨b1, hstep, hrun⟩ := Bandit.run_cons_elim h
    exact ih hrun (Bandit.step_wins_le_tries hstep hb)

theorem Bandit.run_stock_inv {cfg : BanditConfig} :
    ∀ {trs : List TurnOracle} {b b' : Bandit}, b.run cfg trs = some b' →
      b._assetstock = 2 * (b._wins.sum : ℤ) - (b._tries.sum : ℤ) →
      b'._assetstock = 2 * (b'._wins.sum : ℤ) - (b'._tries.sum : ℤ) := by
  intro trs
  induction trs with
  | nil =>
    intro b b' h hb
    rw [Bandit.run_nil_elim h]
    exact hb
  | cons tr trs ih =>
    intro b b' h hb
    obtain ⟨b1, hstep, hrun⟩ := Bandit.run_cons_elim h
    exact ih hrun (Bandit.step_stock_inv hstep hb)

theorem Bandit.run_score_last {cfg : BanditConfig} :
    ∀ {trs : List TurnOracle} {b b' : Bandit}, trs ≠ [] →
      b.run cfg trs = some b' →
      b'._score.getLast? = some b'._assetstock := by
  intro trs
  induction trs with
  | nil => intro b b' hne; exact absurd rfl hne
  | cons tr trs ih =>
    intro b b' _ h
    obtain ⟨b1, hstep, hrun⟩ := Bandit.run_cons_elim h
    cases trs with
    | nil =>
      rw [Bandit.run_nil_elim hrun]
      exact Bandit.step_score_last hstep
    | cons tr2 trs2 => exact ih (by simp) hrun

theorem Bandit.simulate_elim {cfg : BanditConfig} {env : ℕ → TurnOracle}
    {b b' : Bandit} (h : b.simulate cfg env = some b') :
    ∃ b'', b.run cfg ((List.range b._turns.toNat).map env) = some b'' ∧
      b' = { b'' with _complete := true } := by
  simp only [Bandit.simulate] at h
  cases hrun : b.run cfg ((List.range b._turns.toNat).map env) with
  | none => rw [hrun] at h; exact absurd h (by simp)
  | some b'' => rw [hrun] at h; exact ⟨b'', rfl, (Option.some.inj h).symm⟩

/-! ## Facts about the freshly constructed state -/

theorem Bandit.init_tries_sum (arms turns : ℤ) (payoff_fxn : ℕ → ℚ) :
    (Bandit.init arms turns payoff_fxn)._tries.sum = 0 := by
  simp [Bandit.init]

theorem Bandit.init_stock_inv (arms turns : ℤ) (payoff_fxn : ℕ → ℚ) :
    (Bandit.init arms turns payoff_fxn)._assetstock =
      2 * ((Bandit.init arms turns payoff_fxn)._wins.sum : ℤ) -
        ((Bandit.init arms turns payoff_fxn)._tries.sum : ℤ) := by
  simp [Bandit.init]

/-! ## Concrete fixture used by the witnesses: one arm, one turn, sure
payoff 1, strategy putting all mass on the only arm, identity belief
update, identity turbulence. -/

def cfgW : BanditConfig := ⟨fun _ _ => [1], 1/2, fun be _ _ => be⟩

def trW : TurnOracle := ⟨fun pays => pays, 0, 0⟩

def envW : ℕ → TurnOracle := fun _ => trW

def payoffW : ℕ → ℚ := fun _ => 1

/-- The state reached from `Bandit.init 1 1 payoffW` after the single turn
described by `trW`: arm 0 is selected and wins. -/
def bW : Bandit :=
  ⟨1, 1, 1, false, [1], [1], [1], [1/2], [1], [3/4], [0], [0]⟩

theorem stepW_eq : (Bandit.init 1 1 payoffW).step cfgW trW = some bW := by
  norm_num [Bandit.step, Bandit.init, cfgW, trW, payoffW, chooseArm, bisect,
    accumulate, accumulateFrom, bisectAux, listMax, knowledgeMetric,
    opinionMetric, bW, List.getD, List.range_succ]

theorem runW_eq : (Bandit.init 1 1 payoffW).run cfgW [trW] = some bW := by
  simp only [Bandit.run, stepW_eq]

/-! ## The claims -/

/-- Claim C5 (confirmed): for every configuration, payoff draw and oracle
stream, if `N` loop iterations have completed then `sum(tries) = N`; in
particular `sum(tries) = turn_count` after a complete `simulate` run
(`turn_count < 0` behaving as zero turns, since `range` is empty). -/
theorem sum_tries_eq_turns_executed :
    (∀ (cfg : BanditConfig) (trs : List TurnOracle) (arms turns : ℤ)
        (payoff_fxn : ℕ → ℚ) (b' : Bandit),
        (Bandit.init arms turns payoff_fxn).run cfg trs = some b' →
        b'._tries.sum = trs.length) ∧
    (∀ (cfg : BanditConfig) (env : ℕ → TurnOracle) (arms turns : ℤ)
        (payoff_fxn : ℕ → ℚ) (b' : Bandit),
        (Bandit.init arms turns payoff_fxn).simulate cfg env = some b' →
        b'._tries.sum = turns.toNat) := by
  constructor
  · intro cfg trs arms turns payoff_fxn b' h
    rw [Bandit.run_tries_sum h, Bandit.init_tries_sum]
    omega
  · intro cfg env arms turns payoff_fxn b' h
    obtain ⟨b'', hrun, rfl⟩ := Bandit.simulate_elim h
    show b''._tries.sum = turns.toNat
    rw [Bandit.run_tries_sum hrun, Bandit.init_tries_sum]
    simp [Bandit.init]

theorem sum_tries_eq_turns_executed_witness :
    (Bandit.init 1 1 payoffW).run cfgW [trW] = some bW ∧ bW._tries.sum = 1 :=
  ⟨runW_eq, sum_tries_eq_turns_executed.1 cfgW [trW] 1 1 payoffW bW runW_eq⟩

/-- Claim C6 (confirmed): starting from construction, after every completed
turn each arm satisfies `wins[a] ≤ tries[a]`, and a completed turn never
decreases either counter of any arm. -/
theorem wins_le_tries_and_counters_mono :
    (∀ (cfg : BanditConfig) (trs : List TurnOracle) (arms turns : ℤ)
        (payoff_fxn : ℕ → ℚ) (b' : Bandit),
        (Bandit.init arms turns payoff_fxn).run cfg trs = some b' →
        ∀ j, b'._wins.getD j 0 ≤ b'._tries.getD j 0) ∧
    (∀ (cfg : BanditConfig) (tr : TurnOracle) (b b' : Bandit),
        b.step cfg tr = some b' →
        ∀ j, b._tries.getD j 0 ≤ b'._tries.getD j 0 ∧
          b._wins.getD j 0 ≤ b'._wins.getD j 0) := by
  constructor
  · intro cfg trs arms turns payoff_fxn b' h j
    exact Bandit.run_wins_le_tries h (fun _ => le_refl _) j
  · intro cfg tr b b' h j
    exact Bandit.step_counters_mono h j

theorem wins_le_tries_and_counters_mono_witness :
    bW._wins.getD 0 0 ≤ bW._tries.getD 0 0 ∧
    (Bandit.init 1 1 payoffW)._tries.getD 0 0 ≤ bW._tries.getD 0 0 :=
  ⟨wins_le_tries_and_counters_mono.1 cfgW [trW] 1 1 payoffW bW runW_eq 0,
    (wins_le_tries_and_counters_mono.2 cfgW trW (Bandit.init 1 1 payoffW) bW
      stepW_eq 0).1⟩

/-- Claim C7 (confirmed): after any number `N` of completed loop
iterations the four history sequences all have length `N`, and after a
complete `simulate` run they all have length `turn_count.toNat` (equal to
`turn_count` for every `turn_count ≥ 0`). -/
theorem histories_equal_length_eq_turns :
    (∀ (cfg : BanditConfig) (trs : List TurnOracle) (arms turns : ℤ)
        (payoff_fxn : ℕ → ℚ) (b' : Bandit),
        (Bandit.init arms turns payoff_fxn).run cfg trs = some b' →
        b'._score.length = trs.length ∧
        b'._knowledge.length = trs.length ∧
        b'._opinion.length = trs.length ∧
        b'._probexplore.length = trs.length) ∧
    (∀ (cfg : BanditConfig) (env : ℕ → TurnOracle) (arms turns : ℤ)
        (payoff_fxn : ℕ → ℚ) (b' : Bandit),
        (Bandit.init arms turns payoff_fxn).simulate cfg env = some b' →
        b'._score.length = turns.toNat ∧
        b'._knowledge.length = turns.toNat ∧
        b'._opinion.length = turns.toNat ∧
        b'._probexplore.length = turns.toNat) := by
  constructor
  · intro cfg trs arms turns payoff_fxn b' h
    have hlen := Bandit.run_hist_lengths h
    simpa [Bandit.init] using hlen
  · intro cfg env arms turns payoff_fxn b' h
    obtain ⟨b'', hrun, rfl⟩ := Bandit.simulate_elim h
    have hlen := Bandit.run_hist_lengths hrun
    simpa [Bandit.init] using hlen

theorem histories_equal_length_eq_turns_witness :
    bW._score.length = 1 ∧ bW._knowledge.length = 1 ∧
    bW._opinion.length = 1 ∧ bW._probexplore.length = 1 :=
  histories_equal_length_eq_turns.1 cfgW [trW] 1 1 payoffW bW runW_eq

/-- Claim C9 (confirmed): after any number of completed turns the asset
stock equals `2·sum(wins) − sum(tries)`, and after `N ≥ 1` turns the last
recorded score is `2·(total wins) − N` (each prefix of the oracle stream
being itself a run, this settles `score_history[t] = 2·W_t − (t+1)` for
every `t`). -/
theorem assetstock_eq_two_wins_minus_tries :
    ∀ (cfg : BanditConfig) (trs : List TurnOracle) (arms turns : ℤ)
      (payoff_fxn : ℕ → ℚ) (b' : Bandit),
      (Bandit.init arms turns payoff_fxn).run cfg trs = some b' →
      b'._assetstock = 2 * (b'._wins.sum : ℤ) - (b'._tries.sum : ℤ) ∧
      (trs ≠ [] → b'._score.getLast? =
        some (2 * (b'._wins.sum : ℤ) - (trs.length : ℤ))) := by
  intro cfg trs arms turns payoff_fxn b' h
  have hstock := Bandit.run_stock_inv h (Bandit.init_stock_inv arms turns payoff_fxn)
  refine ⟨hstock, fun hne => ?_⟩
  have hlast := Bandit.run_score_last hne h
  have htries : b'._tries.sum = trs.length := by
    rw [Bandit.run_tries_sum h, Bandit.init_tries_sum]
    omega
  rw [hlast, hstock, htries]

theorem assetstock_eq_two_wins_minus_tries_witness :
    bW._assetstock = 2 * (bW._wins.sum : ℤ) - (bW._tries.sum : ℤ) ∧
    bW._score.getLast? =
      some (2 * (bW._wins.sum : ℤ) - (([trW] : List TurnOracle).length : ℤ)) := by
  have h := assetstock_eq_two_wins_minus_tries cfgW [trW] 1 1 payoffW bW runW_eq
  exact ⟨h.1, h.2 (by simp)⟩

/-- Claim C10 (confirmed): if the strategy returns non-negative choice
probabilities summing to exactly 1, the arm selected by the inverse-CDF
lookup for any draw in `[0,1)` is a valid index below `arm_count`, so the
subsequent accesses `tries[choice]`, `wins[choice]`, `payoffs[choice]`
stay in bounds. -/
theorem chooseArm_in_bounds (probs : List ℚ) (x : ℚ)
    (h0 : ∀ p ∈ probs, 0 ≤ p) (h1 : probs.sum = 1)
    (_hx0 : 0 ≤ x) (hx1 : x < 1) :
    chooseArm probs x < probs.length :=
  chooseArm_lt_length h0 h1 hx1

theorem chooseArm_in_bounds_witness :
    chooseArm [(1:ℚ)/2, 1/2] (1/2) < 2 := by
  have h := chooseArm_in_bounds [(1:ℚ)/2, 1/2] (1/2) (by norm_num)
    (by norm_num) (by norm_num) (by norm_num)
  simpa using h

/-- Claim C1 (corrected): the selection step `bisect.bisect(cumdist, x)`
is `bisect_right`, so a uniform draw selects the first arm whose
cumulative choice probability STRICTLY exceeds the draw: every arm before
the selected one has cumulative sum `≤ x` and the selected one has
cumulative sum `> x`.  A draw equal to a cumulative boundary therefore
falls to the next arm (see the counterexample for the `[0.5, 0.5]`,
draw-`0.5` scenario, which selects arm 1, not arm 0). -/
theorem arm_selection_first_strictly_greater (probs : List ℚ) (x : ℚ)
    (h0 : ∀ p ∈ probs, 0 ≤ p) (h1 : probs.sum = 1)
    (_hx0 : 0 ≤ x) (hx1 : x < 1) :
    (∀ j, j < chooseArm probs x → (accumulate probs).getD j 0 ≤ x) ∧
      x < (accumulate probs).getD (chooseArm probs x) 0 :=
  chooseArm_first_strictly_greater h0 h1 hx1

theorem arm_selection_first_strictly_greater_witness :
    (1:ℚ)/2 <
      (accumulate [(1:ℚ)/2, 1/2]).getD (chooseArm [(1:ℚ)/2, 1/2] (1/2)) 0 :=
  (arm_selection_first_strictly_greater [(1:ℚ)/2, 1/2] (1/2) (by norm_num)
    (by norm_num) (by norm_num) (by norm_num)).2

/-- Counterexample to claim C1 as stated: with choice probabilities
`[0.5, 0.5]` (cumulative `[0.5, 1.0]`) and draw exactly `0.5`, the code
selects arm 1, not arm 0. -/
theorem chooseArm_half_draw_selects_arm_one :
    chooseArm [(1:ℚ)/2, 1/2] (1/2) = 1 ∧
      chooseArm [(1:ℚ)/2, 1/2] (1/2) ≠ 0 := by
  constructor <;>
    norm_num [chooseArm, bisect, accumulate, accumulateFrom, bisectAux,
      List.getD]

/-- Claim C2 (corrected): the constructor performs no validation at all,
and for every `arms` and `turns` it returns an instance (with
`completed = false`).  With `arm_count ≤ 0` alone the instance's per-arm
sequences are empty (Python `range` over a non-positive bound is empty);
with `turn_count < 0` alone the instance's run executes zero turns and
completes.  No configuration error is raised anywhere in
`Bandit.__init__`. -/
theorem init_no_validation (cfg : BanditConfig) (env : ℕ → TurnOracle)
    (arms turns : ℤ) (payoff_fxn : ℕ → ℚ) :
    (arms ≤ 0 →
      (Bandit.init arms turns payoff_fxn)._payoffs = [] ∧
      (Bandit.init arms turns payoff_fxn)._tries = [] ∧
      (Bandit.init arms turns payoff_fxn)._wins = [] ∧
      (Bandit.init arms turns payoff_fxn)._beliefs = []) ∧
    (turns < 0 →
      (Bandit.init arms turns payoff_fxn).simulate cfg env =
        some { Bandit.init arms turns payoff_fxn with _complete := true }) ∧
    (Bandit.init arms turns payoff_fxn)._complete = false := by
  refine ⟨fun h1 => ?_, fun h2 => ?_, rfl⟩
  · have ha : arms.toNat = 0 := by omega
    exact ⟨by simp [Bandit.init, ha], by simp [Bandit.init, ha],
      by simp [Bandit.init, ha], by simp [Bandit.init, ha]⟩
  · have ht : turns.toNat = 0 := by omega
    simp only [Bandit.simulate, Bandit.init, ht, List.range_zero,
      List.map_nil, Bandit.run]

theorem init_no_validation_witness :
    (Bandit.init (-1) 5 (fun _ => 0))._tries = [] ∧
    (Bandit.init 3 (-2) (fun _ => 0)).simulate cfgW envW =
      some { Bandit.init 3 (-2) (fun _ => 0) with _complete := true } :=
  ⟨((init_no_validation cfgW envW (-1) 5 (fun _ => 0)).1
      (by norm_num)).2.1,
    (init_no_validation cfgW envW 3 (-2) (fun _ => 0)).2.1 (by norm_num)⟩

/-- Counterexample to claim C2 as stated: `Bandit(arms=0, turns=-1)` is
constructed without any error, yielding a fully formed instance with empty
per-arm lists — the constructor does not reject `arm_count ≤ 0` or
`turn_count < 0` (its body contains no check or raise; every operation in
it is total on these inputs). -/
theorem init_accepts_nonpositive_arms_negative_turns :
    Bandit.init 0 (-1) (fun _ => 0) =
      ⟨0, -1, 0, false, [], [], [], [], [], [], [], []⟩ := rfl

/-- Claim C3 (corrected): with `turn_count = 0` the run operation
completes immediately: all four history sequences are empty and
`completed` is true.  But the four final-metric accessors do NOT return
the "unavailable" marker: since `completed` is true they evaluate
`history[-1]` on an empty list, which raises `IndexError`. -/
theorem simulate_zero_turns_completes_accessors_raise (cfg : BanditConfig)
    (env : ℕ → TurnOracle) (arms : ℤ) (payoff_fxn : ℕ → ℚ) :
    (Bandit.init arms 0 payoff_fxn).simulate cfg env =
      some { Bandit.init arms 0 payoff_fxn with _complete := true } ∧
    ({ Bandit.init arms 0 payoff_fxn with _complete := true } : Bandit)._score = [] ∧
    ({ Bandit.init arms 0 payoff_fxn with _complete := true } : Bandit)._knowledge = [] ∧
    ({ Bandit.init arms 0 payoff_fxn with _complete := true } : Bandit)._opinion = [] ∧
    ({ Bandit.init arms 0 payoff_fxn with _complete := true } : Bandit)._probexplore = [] ∧
    ({ Bandit.init arms 0 payoff_fxn with _complete := true } : Bandit)._complete = true ∧
    Bandit.score { Bandit.init arms 0 payoff_fxn with _complete := true } =
      .error "IndexError" ∧
    Bandit.knowledge { Bandit.init arms 0 payoff_fxn with _complete := true } =
      .error "IndexError" ∧
    Bandit.opinion { Bandit.init arms 0 payoff_fxn with _complete := true } =
      .error "IndexError" ∧
    Bandit.probexplore { Bandit.init arms 0 payoff_fxn with _complete := true } =
      .error "IndexError" :=
  ⟨rfl, rfl, rfl, rfl, rfl, rfl, rfl, rfl, rfl, rfl⟩

/-- Counterexample to claim C3 as stated: after a zero-turn run the state
is completed with empty histories, yet `score()` raises `IndexError`
instead of returning the "unavailable" result. -/
theorem simulate_zero_turns_score_raises :
    (Bandit.init 1 0 payoffW).simulate cfgW envW =
      some { Bandit.init 1 0 payoffW with _complete := true } ∧
    ({ Bandit.init 1 0 payoffW with _complete := true } : Bandit)._complete = true ∧
    Bandit.score { Bandit.init 1 0 payoffW with _complete := true } =
      .error "IndexError" :=
  ⟨rfl, rfl, rfl⟩

/-- Claim C4 (corrected): each accessor is a pure read of the state; it
returns Python `None` (modelled `.ok none`) whenever `completed` is false,
and the last element of its history when `completed` is true and the
history is non-empty.  In the remaining reachable case — `completed` true
with an empty history (a zero-turn run) — it raises `IndexError` instead
of returning a value. -/
theorem accessors_last_none_or_raise (b : Bandit) :
    (b._complete = false →
      b.score = .ok none ∧ b.knowledge = .ok none ∧
      b.opinion = .ok none ∧ b.probexplore = .ok none) ∧
    (∀ v, b._complete = true → b._score.getLast? = some v →
      b.score = .ok (some v)) ∧
    (b._complete = true → b._score = [] → b.score = .error "IndexError") ∧
    (∀ v, b._complete = true → b._knowledge.getLast? = some v →
      b.knowledge = .ok (some v)) ∧
    (b._complete = true → b._knowledge = [] →
      b.knowledge = .error "IndexError") ∧
    (∀ v, b._complete = true → b._opinion.getLast? = some v →
      b.opinion = .ok (some v)) ∧
    (b._complete = true → b._opinion = [] →
      b.opinion = .error "IndexError") ∧
    (∀ v, b._complete = true → b._probexplore.getLast? = some v →
      b.probexplore = .ok (some v)) ∧
    (b._complete = true → b._probexplore = [] →
      b.probexplore = .error "IndexError") := by
  refine ⟨fun hf => ?_, fun v ht hv => ?_, fun ht he => ?_, fun v ht hv => ?_,
    fun ht he => ?_, fun v ht hv => ?_, fun ht he => ?_, fun v ht hv => ?_,
    fun ht he => ?_⟩
  · simp [Bandit.score, Bandit.knowledge, Bandit.opinion, Bandit.probexplore,
      hf]
  · simp [Bandit.score, ht, hv]
  · simp [Bandit.score, ht, he]
  · simp [Bandit.knowledge, ht, hv]
  · simp [Bandit.knowledge, ht, he]
  · simp [Bandit.opinion, ht, hv]
  · simp [Bandit.opinion, ht, he]
  · simp [Bandit.probexplore, ht, hv]
  · simp [Bandit.probexplore, ht, he]

theorem accessors_last_none_or_raise_witness :
    Bandit.score bW = .ok none ∧
    Bandit.score { bW with _complete := true } = .ok (some 1) :=
  ⟨((accessors_last_none_or_raise bW).1 rfl).1,
    (accessors_last_none_or_raise { bW with _complete := true }).2.1 1 rfl rfl⟩

/-- Counterexample to claim C4 as stated: the completed state reached by a
zero-turn run has `completed = true`, yet its `knowledge()` accessor
raises `IndexError` rather than returning the last history element or an
"unavailable" marker. -/
theorem accessor_complete_empty_raises :
    (Bandit.init 1 0 payoffW).simulate cfgW envW =
      some { Bandit.init 1 0 payoffW with _complete := true } ∧
    Bandit.knowledge { Bandit.init 1 0 payoffW with _complete := true } =
      .error "IndexError" :=
  ⟨rfl, rfl⟩

/-- Claim C8 (confirmed): in each turn's outcome step `tries[choice]`
grows by exactly 1 (no other arm's tries changing); a draw strictly below
`payoffs[choice]` is a win (`wins[choice] += 1`, `asset_stock += 1`) and
any other draw is a loss (`wins` unchanged, `asset_stock -= 1`); and the
value appended to `score_history` is the updated cumulative
`asset_stock`, not the per-turn delta. -/
theorem turn_outcome_update (cfg : BanditConfig) (tr : TurnOracle)
    (b b' : Bandit) (choice : ℕ) (h : b.step cfg tr = some b')
    (hc : choice = chooseArm (cfg.strategy_fxn b._beliefs cfg.strategy) tr.x) :
    b'._tries.getD choice 0 = b._tries.getD choice 0 + 1 ∧
    (∀ j, j ≠ choice → b'._tries.getD j 0 = b._tries.getD j 0) ∧
    (tr.y < (tr.turb b._payoffs).getD choice 0 →
      b'._wins.getD choice 0 = b._wins.getD choice 0 + 1 ∧
      b'._assetstock = b._assetstock + 1) ∧
    (¬ tr.y < (tr.turb b._payoffs).getD choice 0 →
      b'._wins = b._wins ∧ b'._assetstock = b._assetstock - 1) ∧
    b'._score = b._score ++ [b'._assetstock] := by
  subst hc
  obtain ⟨c, hc', hctries, hcpay, hbr⟩ := Bandit.step_elim h
  rw [← hc'] at *
  rcases hbr with ⟨hw, hcw, rfl⟩ | ⟨hl, rfl⟩
  · refine ⟨getD_set_incr_self hctries,
      fun j hj => getD_set_ne _ _ _ _ _ (Ne.symm hj),
      fun _ => ⟨getD_set_incr_self hcw, rfl⟩,
      fun hn => absurd hw hn, rfl⟩
  · exact ⟨getD_set_incr_self hctries,
      fun j hj => getD_set_ne _ _ _ _ _ (Ne.symm hj),
      fun hw => absurd hw hl,
      fun _ => ⟨rfl, rfl⟩, rfl⟩

theorem turn_outcome_update_witness :
    bW._tries.getD 0 0 = (Bandit.init 1 1 payoffW)._tries.getD 0 0 + 1 ∧
    bW._assetstock = (Bandit.init 1 1 payoffW)._assetstock + 1 := by
  have h := turn_outcome_update cfgW trW (Bandit.init 1 1 payoffW) bW 0
    stepW_eq
    (by norm_num [cfgW, trW, Bandit.init, chooseArm, bisect, accumulate,
      accumulateFrom, bisectAux, List.getD])
  refine ⟨h.1, (h.2.2.1 ?_).2⟩
  norm_num [trW, Bandit.init, payoffW, List.getD, List.range_succ]
